import Mathlib

/-!
Verification of the score-normalization, performance-banding and
input-latency-calibration engine of the Insomniapp cognitive test suite
(`insomniapp.py`), against its natural-language specification.

The Python functions are shallowly embedded: `float` values become `ℚ`
(the code performs only comparisons, `+`, `-`, `*`, `/`, `min`, `max`,
`abs` and Python `round`, all of which are exact on the literals
involved), dictionaries keyed by strings become total functions
`String → Option _` (absence = `none`) or, for the results store,
`String → List _` (absence = `[]`), and Python's insertion-ordered band
dictionaries become ordered lists.
-/

namespace Insomniapp

/-- The six test names used as dictionary keys throughout `insomniapp.py`. -/
inductive TestName
  | reactionTime
  | digitSpan
  | mentalMath
  | wordRecall
  | stroopTest
  | sustainedAttention
deriving DecidableEq, Repr

/-- One performance band: a named tier with its `(band_min, band_max)`
interval in display-score units, as stored in the band dictionaries of
`get_performance_bands`. -/
structure Band where
  name : String
  lo : ℚ
  hi : ℚ
deriving DecidableEq, Repr

/-- Embedding of `get_performance_bands` (insomniapp.py lines 138-200):
the literal per-test band table, in the dictionary's insertion order
poor, average, good, excellent. -/
def get_performance_bands : TestName → List Band
  | .reactionTime =>
      [⟨"poor", 0.2, 0.4⟩, ⟨"average", 0.4, 0.6⟩,
       ⟨"good", 0.6, 0.8⟩, ⟨"excellent", 0.8, 1.0⟩]
  | .digitSpan =>
      [⟨"poor", 0, 4⟩, ⟨"average", 4, 8⟩,
       ⟨"good", 8, 12⟩, ⟨"excellent", 12, 16⟩]
  | .mentalMath =>
      [⟨"poor", 2.0, 6.5⟩, ⟨"average", 6.5, 11.0⟩,
       ⟨"good", 11.0, 15.5⟩, ⟨"excellent", 15.5, 20.0⟩]
  | .stroopTest =>
      [⟨"poor", 1.0, 2.0⟩, ⟨"average", 2.0, 3.0⟩,
       ⟨"good", 3.0, 4.0⟩, ⟨"excellent", 4.0, 5.0⟩]
  | .sustainedAttention =>
      [⟨"poor", 1.0, 4.0⟩, ⟨"average", 4.0, 7.0⟩,
       ⟨"good", 7.0, 10.0⟩, ⟨"excellent", 10.0, 13.0⟩]
  | .wordRecall =>
      [⟨"poor", 0, 25⟩, ⟨"average", 25, 50⟩,
       ⟨"good", 50, 75⟩, ⟨"excellent", 75, 100⟩]

/-- The fixed display domain `(domain_min, domain_max)` of each test, as
listed in the spec's section 6 table.  It also matches the literal
no-data fallback ranges of `_get_adaptive_y_range`
(insomniapp.py lines 206-219). -/
def domain : TestName → ℚ × ℚ
  | .reactionTime => (0.2, 1.0)
  | .digitSpan => (0, 16)
  | .mentalMath => (2.0, 20.0)
  | .stroopTest => (1.0, 5.0)
  | .sustainedAttention => (1.0, 13.0)
  | .wordRecall => (0, 100)

/-! ## Trend engine -/

/-- Embedding of the `lower_better` field of `get_test_info`
(insomniapp.py lines 32-77): the source dictionary sets
`'lower_better': False` for every one of the six tests. -/
def lower_better : TestName → Bool
  | .reactionTime => false
  | .digitSpan => false
  | .mentalMath => false
  | .wordRecall => false
  | .stroopTest => false
  | .sustainedAttention => false

/-- The two verdict strings the trend code can print. -/
inductive Verdict
  | improving
  | declining
deriving DecidableEq, Repr

/-- Embedding of the trend computation of `display_all_results`
(insomniapp.py lines 1331-1341): `first_three = sum(scores[:3]) / 3`,
`last_three = sum(scores[-3:]) / 3`, verdict by the `lower_better` flag,
and `change = abs(last_three - first_three)`. -/
def display_trend (k : TestName) (scores : List ℚ) : Verdict × ℚ :=
  let first_three := (scores.take 3).sum / 3
  let last_three := (scores.drop (scores.length - 3)).sum / 3
  if lower_better k then
    (if last_three < first_three then .improving else .declining,
     |last_three - first_three|)
  else
    (if last_three > first_three then .improving else .declining,
     |last_three - first_three|)

/-! ## Active band clipper -/

/-- The body of the loop of `_get_active_performance_bands`
(insomniapp.py lines 247-253): a band is kept when
`band_min < y_max and band_max > y_min`, clipped to
`(max(band_min, y_min), min(band_max, y_max))`. -/
def clip_band (ymin ymax : ℚ) (b : Band) : Option Band :=
  if b.lo < ymax ∧ b.hi > ymin then
    some ⟨b.name, max b.lo ymin, min b.hi ymax⟩
  else none

/-- Embedding of `_get_active_performance_bands` (insomniapp.py lines
242-255): the Python `for` loop over the insertion-ordered band dict
builds the result in table order, i.e. a `filterMap`. -/
def _get_active_performance_bands (k : TestName) (ymin ymax : ℚ) :
    List Band :=
  (get_performance_bands k).filterMap (clip_band ymin ymax)

/-! ## Environment fingerprint -/

/-- Embedding of the dictionary returned by `_terminal_signature`
(insomniapp.py lines 258-270): the six environment attributes. -/
structure TerminalSignature where
  os : String
  os_version : String
  python : String
  terminal_program : String
  terminal_version : String
  shell : String
deriving DecidableEq, Repr

/-- Embedding of `_terminal_signature_key` (insomniapp.py lines
272-275): an f-string joining, in order, the os, terminal_program,
terminal_version and shell attributes with a pipe character — the
os_version and python attributes are not part of the key. -/
def _terminal_signature_key (sig : TerminalSignature) : String :=
  sig.os ++ "|" ++ sig.terminal_program ++ "|" ++ sig.terminal_version
    ++ "|" ++ sig.shell

/-! ## Reaction-speed score normalization -/

/-- Embedding of the score computation at the end of
`reaction_time_test` (insomniapp.py lines 660-664):
`average_time = sum(times) / len(times)` and
`avg_adjusted = max(0.0, average_time - baseline)` — the stored
`adjusted_average_s` detail. -/
def reaction_avg_adjusted (times : List ℚ) (baseline : ℚ) : ℚ :=
  let average_time := times.sum / times.length
  max 0 (average_time - baseline)

/-- Embedding of the adjusted-score display logic of `display_results`
(insomniapp.py lines 579-585): prefer the stored `adjusted_average_s`
detail when present, else recompute `max(0.0, score - baseline)` from
the raw score and the current baseline. -/
def display_adjusted (stored : Option ℚ) (score baseline : ℚ) : ℚ :=
  match stored with
  | some adj => adj
  | none => max 0 (score - baseline)

/-! ## Result recording -/

/-- One recorded attempt, as built by `record_result` (insomniapp.py
lines 547-551): timestamp, score and a detail mapping. -/
structure TestResult where
  timestamp : String
  score : ℚ
  details : List (String × ℚ)
deriving DecidableEq, Repr

/-- Embedding of `record_result` (insomniapp.py lines 542-554).  The
results store is modelled as a total map from test name to result
history, a missing key reading as `[]` — matching the
`if test_name not in self.results: self.results[test_name] = []`
initialization.  The new result is appended to the named test's list. -/
def record_result (results : String → List TestResult)
    (test_name : String) (score : ℚ) (details : List (String × ℚ))
    (timestamp : String) : String → List TestResult :=
  fun k =>
    if k = test_name then
      results test_name ++ [⟨timestamp, score, details⟩]
    else results k

/-! ## Latency calibration: reduction and persistence -/

/-- Python's built-in `round` to an integer: round half to even. -/
def pyRound (q : ℚ) : ℤ :=
  let f := ⌊q⌋
  let r := q - f
  if r < 1 / 2 then f
  else if 1 / 2 < r then f + 1
  else if f % 2 = 0 then f else f + 1

/-- Python's `round(x, 1)`: round half to even at one decimal. -/
def pyRound1 (q : ℚ) : ℚ :=
  (pyRound (q * 10) : ℚ) / 10

/-- Stable insertion into a sorted list (helper for `pysort`). -/
def insertSorted (x : ℚ) : List ℚ → List ℚ
  | [] => [x]
  | y :: ys => if x ≤ y then x :: y :: ys else y :: insertSorted x ys

/-- Ascending stable sort, modelling Python's `list.sort()` /
`sorted`. -/
def pysort : List ℚ → List ℚ
  | [] => []
  | x :: xs => insertSorted x (pysort xs)

/-- `statistics.median`: middle element of the sorted list when the
length is odd, else the mean of the two middle elements (0 on the empty
list, which the source never passes). -/
def pymedian (l : List ℚ) : ℚ :=
  let s := pysort l
  let n := s.length
  if n % 2 = 1 then s.getD (n / 2) 0
  else (s.getD (n / 2 - 1) 0 + s.getD (n / 2) 0) / 2

/-- The percentile index expression of `_save_calibration_results`
(insomniapp.py lines 515-516):
`int(max(0, round(p * (len(samples_ms) - 1))))`. -/
def percentile_index (p : ℚ) (n : ℕ) : ℕ :=
  (max 0 (pyRound (p * (((n : ℤ) - 1 : ℤ) : ℚ)))).toNat

/-- The persisted calibration record (insomniapp.py lines 520-528). -/
structure CalibrationEntry where
  median_ms : ℚ
  p10_ms : ℚ
  p90_ms : ℚ
  samples : ℕ
  method : String
  timestamp : String
  env : TerminalSignature
deriving DecidableEq

/-- The entry computed by `_save_calibration_results` (insomniapp.py
lines 512-528) from a non-empty sample list (in seconds): convert to
ms, sort ascending, take the median and the nearest-rank 10th and 90th
percentiles, round each to one decimal. -/
def calibration_entry_of (samples : List ℚ) (method_name : String)
    (sig : TerminalSignature) (timestamp : String) : CalibrationEntry :=
  let samples_ms := pysort (samples.map (· * 1000))
  let median_ms := pymedian samples_ms
  let p10_ms := samples_ms.getD (percentile_index (1 / 10) samples_ms.length) 0
  let p90_ms := samples_ms.getD (percentile_index (9 / 10) samples_ms.length) 0
  ⟨pyRound1 median_ms, pyRound1 p10_ms, pyRound1 p90_ms,
   samples_ms.length, method_name, timestamp, sig⟩

/-- Embedding of `_save_calibration_results` (insomniapp.py lines
506-529) acting on the calibration store (a map from fingerprint key to
entry).  Returns the new store and whether the no-samples condition
("No samples recorded.") was reported instead of writing. -/
def _save_calibration_results (samples : List ℚ) (method_name : String)
    (sig : TerminalSignature) (timestamp : String)
    (cal : String → Option CalibrationEntry) :
    (String → Option CalibrationEntry) × Bool :=
  if samples = [] then (cal, true)
  else
    let entry := calibration_entry_of samples method_name sig timestamp
    (fun k => if k = _terminal_signature_key sig then some entry
      else cal k,
     false)

/-! ## Latency calibration: trial loops -/

/-- One calibration trial outcome: `some dt` when the keystroke
automation succeeded and `dt` was measured, `none` when
`subprocess.run` raised `CalledProcessError`. -/
abbrev TrialOutcome := Option ℚ

/-- Embedding of the macOS sampling loop of `_calibrate_macos_terminal`
(insomniapp.py lines 357-379): trials run in order up to `trial_count`;
a successful trial appends its elapsed time to `samples`; a failed
keystroke injection increments `errors`, prints an error message and
immediately `break`s out of the whole loop. -/
def macos_samples : ℕ → List TrialOutcome → List ℚ
  | 0, _ => []
  | _ + 1, [] => []
  | n + 1, o :: rest =>
      match o with
      | some dt => dt :: macos_samples n rest
      | none => []

/-- Embedding of the Windows SendKeys sampling loop of
`_calibrate_windows_sendkeys` (insomniapp.py lines 438-469): a failed
trial increments `errors` and appends nothing; once `errors >= 3` the
loop `break`s; the error counter is never reset by a successful
trial. -/
def windows_samples : ℕ → ℕ → List TrialOutcome → List ℚ
  | 0, _, _ => []
  | _ + 1, _, [] => []
  | n + 1, errors, o :: rest =>
      match o with
      | some dt => dt :: windows_samples n errors rest
      | none =>
          if errors + 1 ≥ 3 then [] else windows_samples n (errors + 1) rest

/-! ## Adaptive display range -/

/-- The literal no-data fallback ranges of `_get_adaptive_y_range`
(insomniapp.py lines 206-219), one per test name. -/
def fallback_range : TestName → ℚ × ℚ
  | .reactionTime => (0.2, 1.0)
  | .digitSpan => (0, 16)
  | .mentalMath => (2.0, 20.0)
  | .stroopTest => (1.0, 5.0)
  | .sustainedAttention => (1.0, 13.0)
  | .wordRecall => (0, 100)

/-- The data-driven part of `_get_adaptive_y_range` (insomniapp.py
lines 221-240), as a function of the band table and the data's min and
max: keep bands with `min_val < band_max and max_val >= band_min`; if
none, pad the raw extremes (`padding = (max-min)*0.1`, or 1 when the
data is a single point); else return the least kept `band_min` and the
greatest kept `band_max`. -/
def adaptive_core (bl : List Band) (min_val max_val : ℚ) : ℚ × ℚ :=
  match bl.filter (fun b => decide (min_val < b.hi ∧ max_val ≥ b.lo)) with
  | [] =>
      let padding :=
        if max_val ≠ min_val then (max_val - min_val) * 0.1 else 1
      (min_val - padding, max_val + padding)
  | b :: bs =>
      (bs.foldl (fun a c => min a c.lo) b.lo,
       bs.foldl (fun a c => max a c.hi) b.hi)

/-- Embedding of `_get_adaptive_y_range` (insomniapp.py lines 202-240):
empty data falls back to the fixed per-test range; otherwise the
band-union logic runs on `min(data_values)` and `max(data_values)`. -/
def _get_adaptive_y_range (k : TestName) (data : List ℚ) : ℚ × ℚ :=
  match data with
  | [] => fallback_range k
  | v :: vs =>
      adaptive_core (get_performance_bands k) (vs.foldl min v)
        (vs.foldl max v)

/-- C4: for every test kind the band table is exactly four tiers named
poor, average, good, excellent in ascending display-score order, the
intervals are contiguous and equal-width, they span exactly the kind's
fixed domain from the section-6 table, and each band has width
`(domain_max - domain_min) / 4`. -/
theorem bands_partition_domain (k : TestName) :
    (get_performance_bands k).map Band.name =
      ["poor", "average", "good", "excellent"] ∧
    (get_performance_bands k).Chain' (fun a b => a.hi = b.lo) ∧
    (∀ b ∈ get_performance_bands k, b.lo < b.hi) ∧
    (∀ b ∈ get_performance_bands k,
      b.hi - b.lo = ((domain k).2 - (domain k).1) / 4) ∧
    (get_performance_bands k).head?.map Band.lo = some (domain k).1 ∧
    (get_performance_bands k).getLast?.map Band.hi = some (domain k).2 := by
  cases k <;>
    refine ⟨rfl, ?_, ?_, ?_, ?_, ?_⟩ <;>
    simp [get_performance_bands, domain, List.chain'_cons] <;>
    norm_num

/-- C1 counterexample: for Mental Math (arithmetic-speed) with display
scores `[15,14,13,9,8,7]` the code computes the verdict `declining`
(with magnitude 6), not `improving` as claimed: `get_test_info` marks
Mental Math `lower_better = False`, so the trend comparison treats a
larger time per problem as better. -/
theorem display_trend_mentalMath_example :
    display_trend TestName.mentalMath [15, 14, 13, 9, 8, 7] =
      (Verdict.declining, 6) ∧
    (display_trend TestName.mentalMath [15, 14, 13, 9, 8, 7]).1 ≠
      Verdict.improving := by
  have h : display_trend TestName.mentalMath [15, 14, 13, 9, 8, 7] =
      (Verdict.declining, 6) := by
    simp only [display_trend, lower_better]
    norm_num
  exact ⟨h, by rw [h]; simp⟩

/-- C1 amended: for every test kind and every sequence of at least 6
display scores, the verdict is `improving` exactly when
`last3 > first3` and `declining` otherwise (including exact equality,
which never yields a separate `stable` verdict), because the code's
`lower_better` flag is `False` for every kind — including the
time-based ones; the magnitude is `|last3 - first3|`. -/
theorem display_trend_characterization (k : TestName) (scores : List ℚ)
    (h : 6 ≤ scores.length) :
    ((display_trend k scores).1 = Verdict.improving ↔
      (scores.take 3).sum / 3 < (scores.drop (scores.length - 3)).sum / 3) ∧
    ((display_trend k scores).1 = Verdict.declining ↔
      ¬ (scores.take 3).sum / 3 < (scores.drop (scores.length - 3)).sum / 3) ∧
    (display_trend k scores).2 =
      |(scores.drop (scores.length - 3)).sum / 3 - (scores.take 3).sum / 3| := by
  have hlb : lower_better k = false := by cases k <;> rfl
  simp only [display_trend, hlb, if_false, Bool.false_eq_true, gt_iff_lt]
  constructor
  · split <;> simp_all
  constructor
  · split <;> simp_all
  · trivial

/-- Witness for `display_trend_characterization` at a concrete input. -/
theorem display_trend_characterization_witness :
    (display_trend TestName.mentalMath [15, 14, 13, 9, 8, 7]).2 =
      |(([15, 14, 13, 9, 8, 7] : List ℚ).drop
          (([15, 14, 13, 9, 8, 7] : List ℚ).length - 3)).sum / 3 -
        (([15, 14, 13, 9, 8, 7] : List ℚ).take 3).sum / 3| :=
  (display_trend_characterization TestName.mentalMath [15, 14, 13, 9, 8, 7]
    (by norm_num)).2.2

/-- A `filterMap` whose function is an `if`-guarded `some` is a `filter`
followed by a `map`. -/
theorem filterMap_guard_eq {α β : Type} (p : α → Prop) [DecidablePred p]
    (f : α → β) (l : List α) :
    l.filterMap (fun a => if p a then some (f a) else none) =
      (l.filter (fun a => decide (p a))).map f := by
  induction l with
  | nil => rfl
  | cons a t ih => by_cases h : p a <;> simp [h, ih]

/-- C5: for every test kind and window, `_get_active_performance_bands`
returns exactly the bands of the full table with
`band_min < y_max` and `band_max > y_min`, in table order, each clipped
to `(max(band_min, y_min), min(band_max, y_max))`; every returned
interval lies inside `[y_min, y_max]`; and when no band overlaps the
window the result is the empty mapping. -/
theorem active_bands_spec (k : TestName) (ymin ymax : ℚ) :
    _get_active_performance_bands k ymin ymax =
      ((get_performance_bands k).filter
        (fun b => decide (b.lo < ymax ∧ b.hi > ymin))).map
        (fun b => ⟨b.name, max b.lo ymin, min b.hi ymax⟩) ∧
    (∀ b ∈ _get_active_performance_bands k ymin ymax,
      ymin ≤ b.lo ∧ b.hi ≤ ymax) ∧
    ((∀ b ∈ get_performance_bands k, ¬(b.lo < ymax ∧ b.hi > ymin)) →
      _get_active_performance_bands k ymin ymax = []) := by
  refine ⟨?_, ?_, ?_⟩
  · show (get_performance_bands k).filterMap
        (fun b => if b.lo < ymax ∧ b.hi > ymin
          then some (⟨b.name, max b.lo ymin, min b.hi ymax⟩ : Band)
          else none) = _
    exact filterMap_guard_eq _ _ _
  · intro b hb
    rcases List.mem_filterMap.mp hb with ⟨a, _, ha⟩
    unfold clip_band at ha
    split at ha
    · cases ha
      exact ⟨le_max_right _ _, min_le_right _ _⟩
    · exact absurd ha (by simp)
  · intro hnone
    apply List.filterMap_eq_nil_iff.mpr
    intro a ha
    unfold clip_band
    exact if_neg (hnone a ha)

/-- Witness for `active_bands_spec` at a concrete window: for Digit
Span with window `(2, 30)` the band `average = (4, 8)` is returned and
lies inside the window, and for the window `(20, 30)` (above every
band) the result is empty. -/
theorem active_bands_spec_witness :
    ((2 : ℚ) ≤ 4 ∧ (8 : ℚ) ≤ 30) ∧
    _get_active_performance_bands TestName.digitSpan 20 30 = [] := by
  constructor
  · exact (active_bands_spec TestName.digitSpan 2 30).2.1 ⟨"average", 4, 8⟩
      (by simp [_get_active_performance_bands, get_performance_bands,
        clip_band]; norm_num)
  · exact (active_bands_spec TestName.digitSpan 20 30).2.2
      (by simp [get_performance_bands]; norm_num)

theorem string_append_data (a b : String) :
    (a ++ b).data = a.data ++ b.data := by
  cases a; cases b; rfl

/-- The character data of a fingerprint key, in right-nested form. -/
theorem key_data (sig : TerminalSignature) :
    (_terminal_signature_key sig).data =
      sig.os.data ++ '|' :: (sig.terminal_program.data ++
        '|' :: (sig.terminal_version.data ++ '|' :: sig.shell.data)) := by
  simp [_terminal_signature_key, string_append_data, List.append_assoc]

theorem key_eq_of_fields (s1 s2 : TerminalSignature)
    (h1 : s1.os = s2.os) (h2 : s1.terminal_program = s2.terminal_program)
    (h3 : s1.terminal_version = s2.terminal_version)
    (h4 : s1.shell = s2.shell) :
    _terminal_signature_key s1 = _terminal_signature_key s2 := by
  unfold _terminal_signature_key
  rw [h1, h2, h3, h4]

theorem key_ne_of_os_ne (s1 s2 : TerminalSignature)
    (h2 : s1.terminal_program = s2.terminal_program)
    (h3 : s1.terminal_version = s2.terminal_version)
    (h4 : s1.shell = s2.shell) (hne : s1.os ≠ s2.os) :
    _terminal_signature_key s1 ≠ _terminal_signature_key s2 := by
  intro hkey
  apply hne
  have hd := congrArg String.data hkey
  rw [key_data, key_data, h2, h3, h4] at hd
  exact String.ext (List.append_cancel_right hd)

theorem key_ne_of_tp_ne (s1 s2 : TerminalSignature)
    (h1 : s1.os = s2.os) (h3 : s1.terminal_version = s2.terminal_version)
    (h4 : s1.shell = s2.shell)
    (hne : s1.terminal_program ≠ s2.terminal_program) :
    _terminal_signature_key s1 ≠ _terminal_signature_key s2 := by
  intro hkey
  apply hne
  have hd := congrArg String.data hkey
  rw [key_data, key_data, h1, h3, h4] at hd
  have hd2 := List.append_cancel_left hd
  injection hd2 with _ hd3
  exact String.ext (List.append_cancel_right hd3)

theorem key_ne_of_tv_ne (s1 s2 : TerminalSignature)
    (h1 : s1.os = s2.os) (h2 : s1.terminal_program = s2.terminal_program)
    (h4 : s1.shell = s2.shell)
    (hne : s1.terminal_version ≠ s2.terminal_version) :
    _terminal_signature_key s1 ≠ _terminal_signature_key s2 := by
  intro hkey
  apply hne
  have hd := congrArg String.data hkey
  rw [key_data, key_data, h1, h2, h4] at hd
  have hd2 := List.append_cancel_left hd
  injection hd2 with _ hd3
  have hd4 := List.append_cancel_left hd3
  injection hd4 with _ hd5
  exact String.ext (List.append_cancel_right hd5)

theorem key_ne_of_shell_ne (s1 s2 : TerminalSignature)
    (h1 : s1.os = s2.os) (h2 : s1.terminal_program = s2.terminal_program)
    (h3 : s1.terminal_version = s2.terminal_version)
    (hne : s1.shell ≠ s2.shell) :
    _terminal_signature_key s1 ≠ _terminal_signature_key s2 := by
  intro hkey
  apply hne
  have hd := congrArg String.data hkey
  rw [key_data, key_data, h1, h2, h3] at hd
  have hd2 := List.append_cancel_left hd
  injection hd2 with _ hd3
  have hd4 := List.append_cancel_left hd3
  injection hd4 with _ hd5
  have hd6 := List.append_cancel_left hd5
  injection hd6 with _ hd7
  exact String.ext hd7

/-- C3 counterexample: the fingerprint key is the f-string
`os|terminal_program|terminal_version|shell`, so two environments that
differ only in the OS version attribute (and hence also two differing
only in the runtime version) produce the same key, refuting "a change
to any one of these six attributes produces a different key". -/
theorem signature_key_ignores_os_version :
    _terminal_signature_key
        ⟨"Linux", "5.0", "3.11", "iTerm", "1.0", "zsh"⟩ =
      _terminal_signature_key
        ⟨"Linux", "6.0", "3.11", "iTerm", "1.0", "zsh"⟩ ∧
    ("5.0" : String) ≠ "6.0" :=
  ⟨rfl, by decide⟩

/-- C3 amended: the key is a deterministic function of only four of the
six environment attributes — OS name, terminal program, terminal
program version and shell: environments agreeing on those four always
get the same key (so OS version and runtime version changes do not
change the key), and a change to any one of those four attributes alone
produces a different key. -/
theorem signature_key_characterization :
    (∀ s1 s2 : TerminalSignature,
      s1.os = s2.os → s1.terminal_program = s2.terminal_program →
      s1.terminal_version = s2.terminal_version → s1.shell = s2.shell →
      _terminal_signature_key s1 = _terminal_signature_key s2) ∧
    (∀ s1 s2 : TerminalSignature,
      s1.terminal_program = s2.terminal_program →
      s1.terminal_version = s2.terminal_version → s1.shell = s2.shell →
      s1.os ≠ s2.os →
      _terminal_signature_key s1 ≠ _terminal_signature_key s2) ∧
    (∀ s1 s2 : TerminalSignature,
      s1.os = s2.os → s1.terminal_version = s2.terminal_version →
      s1.shell = s2.shell →
      s1.terminal_program ≠ s2.terminal_program →
      _terminal_signature_key s1 ≠ _terminal_signature_key s2) ∧
    (∀ s1 s2 : TerminalSignature,
      s1.os = s2.os → s1.terminal_program = s2.terminal_program →
      s1.shell = s2.shell →
      s1.terminal_version ≠ s2.terminal_version →
      _terminal_signature_key s1 ≠ _terminal_signature_key s2) ∧
    (∀ s1 s2 : TerminalSignature,
      s1.os = s2.os → s1.terminal_program = s2.terminal_program →
      s1.terminal_version = s2.terminal_version →
      s1.shell ≠ s2.shell →
      _terminal_signature_key s1 ≠ _terminal_signature_key s2) :=
  ⟨key_eq_of_fields, key_ne_of_os_ne, key_ne_of_tp_ne,
   key_ne_of_tv_ne, key_ne_of_shell_ne⟩

/-- Witness for `signature_key_characterization` at concrete
environments. -/
theorem signature_key_characterization_witness :
    _terminal_signature_key
        ⟨"Linux", "5.0", "3.11", "iTerm", "1.0", "zsh"⟩ =
      _terminal_signature_key
        ⟨"Linux", "6.1", "3.12", "iTerm", "1.0", "zsh"⟩ ∧
    _terminal_signature_key
        ⟨"Linux", "5.0", "3.11", "iTerm", "1.0", "zsh"⟩ ≠
      _terminal_signature_key
        ⟨"Darwin", "5.0", "3.11", "iTerm", "1.0", "zsh"⟩ :=
  ⟨signature_key_characterization.1 _ _ rfl rfl rfl rfl,
   signature_key_characterization.2.1 _ _ rfl rfl rfl (by decide)⟩

/-- C6: for reaction-speed the normalized score is
`max(0.0, raw - baseline)`, hence nonnegative for every raw score `≥ 0`
and baseline `≥ 0`; the clamp applies both to the stored
`adjusted_average` (computed in `reaction_time_test` from the trial
average) and to the value recomputed at display time by
`display_results` from a raw score and the current baseline. -/
theorem reaction_normalize_clamped (times : List ℚ) (raw baseline : ℚ)
    (hraw : 0 ≤ raw) (hbase : 0 ≤ baseline) :
    reaction_avg_adjusted times baseline =
      max 0 (times.sum / times.length - baseline) ∧
    0 ≤ reaction_avg_adjusted times baseline ∧
    display_adjusted none raw baseline = max 0 (raw - baseline) ∧
    0 ≤ display_adjusted none raw baseline :=
  ⟨rfl, le_max_left _ _, rfl, le_max_left _ _⟩

/-- Witness for `reaction_normalize_clamped` at a concrete input. -/
theorem reaction_normalize_clamped_witness :
    0 ≤ reaction_avg_adjusted [0.5] 0.1 ∧
    0 ≤ display_adjusted none 0.5 0.1 :=
  ⟨(reaction_normalize_clamped [0.5] 0.5 0.1 (by norm_num)
      (by norm_num)).2.1,
   (reaction_normalize_clamped [0.5] 0.5 0.1 (by norm_num)
      (by norm_num)).2.2.2⟩

/-- C10: recording a result appends exactly one new entry at the end of
that test's history and leaves the history of every other test
unchanged in content and order. -/
theorem record_result_frame (results : String → List TestResult)
    (test_name : String) (score : ℚ) (details : List (String × ℚ))
    (timestamp : String) :
    record_result results test_name score details timestamp test_name =
      results test_name ++ [⟨timestamp, score, details⟩] ∧
    ∀ k, k ≠ test_name →
      record_result results test_name score details timestamp k =
        results k :=
  ⟨if_pos rfl, fun _ hk => if_neg hk⟩

/-- Witness for `record_result_frame` at a concrete store. -/
theorem record_result_frame_witness :
    record_result (fun _ => []) "Mental Math" 12 [] "t" "Mental Math" =
      [⟨"t", 12, []⟩] ∧
    record_result (fun _ => []) "Mental Math" 12 [] "t" "Digit Span" =
      [] :=
  ⟨(record_result_frame (fun _ => []) "Mental Math" 12 [] "t").1,
   (record_result_frame (fun _ => []) "Mental Math" 12 [] "t").2
     "Digit Span" (by decide)⟩

theorem pyRound_le (q : ℚ) (k : ℤ) (h : q < k + 1 / 2) : pyRound q ≤ k := by
  have hfl : (⌊q⌋ : ℚ) ≤ q := Int.floor_le q
  have hk : ⌊q⌋ ≤ k := by
    have h1 : ⌊q⌋ < k + 1 := Int.floor_lt.mpr (by push_cast; linarith)
    omega
  have hunfold : pyRound q =
      if q - ⌊q⌋ < 1 / 2 then ⌊q⌋
      else if 1 / 2 < q - ⌊q⌋ then ⌊q⌋ + 1
      else if ⌊q⌋ % 2 = 0 then ⌊q⌋ else ⌊q⌋ + 1 := rfl
  rw [hunfold]
  by_cases h1 : q - ⌊q⌋ < 1 / 2
  · rw [if_pos h1]; exact hk
  · rw [if_neg h1]
    have hlt : ⌊q⌋ < k := by
      have h2 : (1 : ℚ) / 2 ≤ q - ⌊q⌋ := not_lt.mp h1
      have h3 : ((⌊q⌋ : ℚ)) < (k : ℚ) := by linarith
      exact_mod_cast h3
    by_cases h2 : (1 : ℚ) / 2 < q - ⌊q⌋
    · rw [if_pos h2]; omega
    · rw [if_neg h2]
      by_cases h3 : ⌊q⌋ % 2 = 0
      · rw [if_pos h3]; exact hk
      · rw [if_neg h3]; omega

theorem percentile_index_clamped (p : ℚ) (n : ℕ) (hn : 1 ≤ n)
    (hp0 : 0 ≤ p) (hp1 : p ≤ 1) :
    (percentile_index p n : ℤ) =
      min ((n : ℤ) - 1)
        (max 0 (pyRound (p * (((n : ℤ) - 1 : ℤ) : ℚ)))) := by
  have hn1 : (0 : ℤ) ≤ (n : ℤ) - 1 := by
    have : (1 : ℤ) ≤ (n : ℤ) := by exact_mod_cast hn
    omega
  have hn1q : (0 : ℚ) ≤ (((n : ℤ) - 1 : ℤ) : ℚ) := by exact_mod_cast hn1
  have hq : p * (((n : ℤ) - 1 : ℤ) : ℚ) < ((n : ℤ) - 1 : ℤ) + 1 / 2 := by
    have hle : p * (((n : ℤ) - 1 : ℤ) : ℚ) ≤ (((n : ℤ) - 1 : ℤ) : ℚ) := by
      nlinarith
    push_cast
    push_cast at hle
    linarith
  have hle := pyRound_le _ _ hq
  have hmax : max 0 (pyRound (p * (((n : ℤ) - 1 : ℤ) : ℚ))) ≤ (n : ℤ) - 1 :=
    max_le hn1 hle
  rw [min_eq_right hmax]
  exact Int.toNat_of_nonneg (le_max_left _ _)

/-- C7: the calibration reduction sorts the samples ascending and reads
percentile `p` at the nearest-rank index `round(p × (n−1))` clamped
into `[0, n−1]` (the code writes only `max(0, …)`, but the upper clamp
is provably redundant for `p ∈ [0,1]`); for the samples
`[10, 20, 30, 40, 50]` ms it yields `p10 = 10` at index
`round(0.10×4) = 0`, `p90 = 50` at index `round(0.90×4) = 4`, and
`median = 30` — also through the full `_save_calibration_results`
pipeline starting from unsorted per-trial seconds. -/
theorem calibration_reduction_rule (n : ℕ) (hn : 1 ≤ n) :
    ((percentile_index (1 / 10) n : ℤ) =
      min ((n : ℤ) - 1)
        (max 0 (pyRound ((1 / 10) * (((n : ℤ) - 1 : ℤ) : ℚ)))) ∧
     (percentile_index (9 / 10) n : ℤ) =
      min ((n : ℤ) - 1)
        (max 0 (pyRound ((9 / 10) * (((n : ℤ) - 1 : ℤ) : ℚ))))) ∧
    pyRound ((1 / 10 : ℚ) * 4) = 0 ∧
    pyRound ((9 / 10 : ℚ) * 4) = 4 ∧
    percentile_index (1 / 10) 5 = 0 ∧
    percentile_index (9 / 10) 5 = 4 ∧
    pymedian [10, 20, 30, 40, 50] = 30 ∧
    ([10, 20, 30, 40, 50] : List ℚ).getD (percentile_index (1 / 10) 5) 0
      = 10 ∧
    ([10, 20, 30, 40, 50] : List ℚ).getD (percentile_index (9 / 10) 5) 0
      = 50 ∧
    (∀ (sig : TerminalSignature) (method ts : String),
      calibration_entry_of
          [3 / 100, 1 / 100, 1 / 20, 1 / 25, 1 / 50] method sig ts =
        ⟨30, 10, 50, 5, method, ts, sig⟩) := by
  refine ⟨⟨percentile_index_clamped _ n hn (by norm_num) (by norm_num),
           percentile_index_clamped _ n hn (by norm_num) (by norm_num)⟩,
    ?_, ?_, ?_, ?_, ?_, ?_, ?_, ?_⟩
  · norm_num [pyRound]
  · norm_num [pyRound]
  · norm_num [percentile_index, pyRound]
  · norm_num [percentile_index, pyRound]
    rfl
  · norm_num [pymedian, pysort, insertSorted]
  · norm_num [percentile_index, pyRound]
  · have h90 : percentile_index (9 / 10) 5 = 4 := by
      norm_num [percentile_index, pyRound]
      rfl
    rw [h90]
    rfl
  · intro sig method ts
    have hms : pysort
        (([3 / 100, 1 / 100, 1 / 20, 1 / 25, 1 / 50] : List ℚ).map
          (· * 1000)) = [10, 20, 30, 40, 50] := by
      norm_num [pysort, insertSorted]
    have h10 : percentile_index (1 / 10) 5 = 0 := by
      norm_num [percentile_index, pyRound]
    have h90 : percentile_index (9 / 10) 5 = 4 := by
      norm_num [percentile_index, pyRound]
      rfl
    simp only [calibration_entry_of, hms]
    norm_num [h10, h90, pymedian, pysort, insertSorted, pyRound1,
      pyRound, List.getD]

/-- Witness for `calibration_reduction_rule` at `n = 5`. -/
theorem calibration_reduction_rule_witness :
    pymedian [10, 20, 30, 40, 50] = 30 :=
  (calibration_reduction_rule 5 (by norm_num)).2.2.2.2.2.1

/-- C8: a calibration run with zero samples writes nothing — the store
returned by `_save_calibration_results` is the input store, so any
prior entry for the current fingerprint is unchanged — and reports the
no-samples condition; with at least one sample it persists the computed
entry, fully replacing any prior entry under the same fingerprint key
and leaving every other key unchanged. -/
theorem calibration_write_policy (samples : List ℚ) (method : String)
    (sig : TerminalSignature) (ts : String)
    (cal : String → Option CalibrationEntry) :
    (samples = [] →
      (_save_calibration_results samples method sig ts cal).1 = cal ∧
      (_save_calibration_results samples method sig ts cal).2 = true) ∧
    (samples ≠ [] →
      (_save_calibration_results samples method sig ts cal).1
          (_terminal_signature_key sig) =
        some (calibration_entry_of samples method sig ts) ∧
      (∀ k, k ≠ _terminal_signature_key sig →
        (_save_calibration_results samples method sig ts cal).1 k =
          cal k) ∧
      (_save_calibration_results samples method sig ts cal).2 = false) := by
  constructor
  · intro h
    subst h
    exact ⟨rfl, rfl⟩
  · intro h
    unfold _save_calibration_results
    rw [if_neg h]
    exact ⟨if_pos rfl, fun _ hk => if_neg hk, rfl⟩

/-- Witness for `calibration_write_policy` on a concrete empty and a
concrete non-empty run. -/
theorem calibration_write_policy_witness :
    (_save_calibration_results [] "Manual timing"
        ⟨"Linux", "5", "3", "T", "1", "sh"⟩ "t" (fun _ => none)).1 =
      (fun _ => none) ∧
    (_save_calibration_results [] "Manual timing"
        ⟨"Linux", "5", "3", "T", "1", "sh"⟩ "t" (fun _ => none)).2 =
      true ∧
    (_save_calibration_results [1 / 5] "Manual timing"
        ⟨"Linux", "5", "3", "T", "1", "sh"⟩ "t" (fun _ => none)).1
        (_terminal_signature_key ⟨"Linux", "5", "3", "T", "1", "sh"⟩) =
      some (calibration_entry_of [1 / 5] "Manual timing"
        ⟨"Linux", "5", "3", "T", "1", "sh"⟩ "t") :=
  ⟨((calibration_write_policy [] "Manual timing"
      ⟨"Linux", "5", "3", "T", "1", "sh"⟩ "t" (fun _ => none)).1 rfl).1,
   ((calibration_write_policy [] "Manual timing"
      ⟨"Linux", "5", "3", "T", "1", "sh"⟩ "t" (fun _ => none)).1 rfl).2,
   ((calibration_write_policy [1 / 5] "Manual timing"
      ⟨"Linux", "5", "3", "T", "1", "sh"⟩ "t" (fun _ => none)).2
      (by simp)).1⟩

theorem macos_samples_eq (count : ℕ) (stream : List TrialOutcome) :
    macos_samples count stream =
      ((stream.take count).takeWhile Option.isSome).filterMap id := by
  induction count generalizing stream with
  | zero => simp [macos_samples]
  | succ n ih =>
    cases stream with
    | nil => simp [macos_samples]
    | cons o rest =>
      cases o with
      | some dt => simp [macos_samples, List.takeWhile_cons, ih]
      | none => simp [macos_samples, List.takeWhile_cons]

theorem windows_samples_mem (n : ℕ) :
    ∀ (e : ℕ) (s : List TrialOutcome) (x : ℚ),
      x ∈ windows_samples n e s → some x ∈ s := by
  induction n with
  | zero => intro e s x hx; simp [windows_samples] at hx
  | succ n ih =>
    intro e s x hx
    cases s with
    | nil => simp [windows_samples] at hx
    | cons o rest =>
      cases o with
      | some dt =>
        simp only [windows_samples, List.mem_cons] at hx
        rcases hx with h | h
        · simp [h]
        · exact List.mem_cons_of_mem _ (ih _ _ _ h)
      | none =>
        by_cases he : e + 1 ≥ 3
        · simp [windows_samples, he] at hx
        · simp only [windows_samples, if_neg he] at hx
          exact List.mem_cons_of_mem _ (ih _ _ _ hx)

/-- C9 counterexample: in the macOS path a single trial failure —
fewer than three — aborts the whole run (the four subsequent successful
trials are never collected), and in the Windows path three cumulative
but non-consecutive failures (each separated by a success) abort the
run early.  This refutes both "three consecutive trial-level failures
abort the whole run early" and "no smaller number of failures aborts
it". -/
theorem trial_abort_counterexample :
    macos_samples 5 [none, some 0.1, some 0.2, some 0.3, some 0.4] =
      [] ∧
    windows_samples 10 0 [none, some 1, none, some 2, none, some 3] =
      [1, 2] :=
  ⟨rfl, rfl⟩

/-- C9 amended: a trial that cannot complete is dropped from the
sample list (never recorded as zero); but the abort policy is
path-specific: the macOS loop collects the successful prefix of the
trials and `break`s at the very first failure, while the Windows
SendKeys loop aborts on the third cumulative failure — consecutive or
not — and continues, merely dropping the trial, while fewer than three
failures have occurred. -/
theorem trial_failure_policy :
    (∀ (count : ℕ) (stream : List TrialOutcome),
      macos_samples count stream =
        ((stream.take count).takeWhile Option.isSome).filterMap id) ∧
    (∀ (n e : ℕ) (s : List TrialOutcome) (x : ℚ),
      x ∈ windows_samples n e s → some x ∈ s) ∧
    (∀ (n : ℕ) (s : List TrialOutcome),
      windows_samples (n + 1) 2 (none :: s) = []) ∧
    (∀ (n e : ℕ) (s : List TrialOutcome), e + 1 < 3 →
      windows_samples (n + 1) e (none :: s) =
        windows_samples n (e + 1) s) := by
  refine ⟨macos_samples_eq, fun n => windows_samples_mem n, ?_, ?_⟩
  · intro n s; rfl
  · intro n e s he
    simp only [windows_samples, if_neg (by omega : ¬ e + 1 ≥ 3)]

/-- Witness for `trial_failure_policy` at concrete streams. -/
theorem trial_failure_policy_witness :
    (some (7 / 2) : TrialOutcome) ∈ [some (7 / 2), none] ∧
    windows_samples 4 0 [none, some 1] = windows_samples 3 1 [some 1] := by
  constructor
  · refine trial_failure_policy.2.1 2 0 [some (7 / 2), none] (7 / 2) ?_
    simp [windows_samples]
  · exact trial_failure_policy.2.2.2 3 0 [some 1] (by omega)

theorem foldl_min_le_init (vs : List ℚ) (v : ℚ) : vs.foldl min v ≤ v := by
  induction vs generalizing v with
  | nil => exact le_refl v
  | cons w t ih => exact le_trans (ih (min v w)) (min_le_left _ _)

theorem foldl_min_le_all (vs : List ℚ) (v : ℚ) :
    ∀ x ∈ v :: vs, vs.foldl min v ≤ x := by
  induction vs generalizing v with
  | nil =>
    intro x hx
    rcases List.mem_cons.mp hx with h | h
    · subst h; exact le_refl x
    · simp at h
  | cons w t ih =>
    intro x hx
    have hinit : t.foldl min (min v w) ≤ min v w :=
      foldl_min_le_init t (min v w)
    rcases List.mem_cons.mp hx with h | h
    · subst h; exact le_trans hinit (min_le_left _ _)
    · rcases List.mem_cons.mp h with h2 | h2
      · subst h2; exact le_trans hinit (min_le_right _ _)
      · exact ih (min v w) x (List.mem_cons_of_mem _ h2)

theorem foldl_min_mem (vs : List ℚ) (v : ℚ) : vs.foldl min v ∈ v :: vs := by
  induction vs generalizing v with
  | nil => simp
  | cons w t ih =>
    have h := ih (min v w)
    rcases List.mem_cons.mp h with h1 | h1
    · rcases min_cases v w with ⟨he, _⟩ | ⟨he, _⟩
      · exact List.mem_cons.mpr (Or.inl (by rw [List.foldl_cons, h1, he]))
      · refine List.mem_cons_of_mem _ (List.mem_cons.mpr (Or.inl ?_))
        rw [List.foldl_cons, h1, he]
    · exact List.mem_cons_of_mem _
        (List.mem_cons_of_mem _ (by rw [List.foldl_cons]; exact h1))

theorem foldl_max_le_init (vs : List ℚ) (v : ℚ) : v ≤ vs.foldl max v := by
  induction vs generalizing v with
  | nil => exact le_refl v
  | cons w t ih => exact le_trans (le_max_left _ _) (ih (max v w))

theorem foldl_max_le_all (vs : List ℚ) (v : ℚ) :
    ∀ x ∈ v :: vs, x ≤ vs.foldl max v := by
  induction vs generalizing v with
  | nil =>
    intro x hx
    rcases List.mem_cons.mp hx with h | h
    · subst h; exact le_refl x
    · simp at h
  | cons w t ih =>
    intro x hx
    have hinit : max v w ≤ t.foldl max (max v w) :=
      foldl_max_le_init t (max v w)
    rcases List.mem_cons.mp hx with h | h
    · subst h; exact le_trans (le_max_left _ _) hinit
    · rcases List.mem_cons.mp h with h2 | h2
      · subst h2; exact le_trans (le_max_right _ _) hinit
      · exact ih (max v w) x (List.mem_cons_of_mem _ h2)

theorem foldl_max_mem (vs : List ℚ) (v : ℚ) : vs.foldl max v ∈ v :: vs := by
  induction vs generalizing v with
  | nil => simp
  | cons w t ih =>
    have h := ih (max v w)
    rcases List.mem_cons.mp h with h1 | h1
    · rcases max_cases v w with ⟨he, _⟩ | ⟨he, _⟩
      · exact List.mem_cons.mpr (Or.inl (by rw [List.foldl_cons, h1, he]))
      · refine List.mem_cons_of_mem _ (List.mem_cons.mpr (Or.inl ?_))
        rw [List.foldl_cons, h1, he]
    · exact List.mem_cons_of_mem _
        (List.mem_cons_of_mem _ (by rw [List.foldl_cons]; exact h1))

theorem foldl_min_lo_le_init (l : List Band) (x : ℚ) :
    l.foldl (fun a c => min a c.lo) x ≤ x := by
  induction l generalizing x with
  | nil => exact le_refl x
  | cons c t ih => exact le_trans (ih (min x c.lo)) (min_le_left _ _)

theorem foldl_min_lo_le_mem (l : List Band) (x : ℚ) :
    ∀ c ∈ l, l.foldl (fun a c => min a c.lo) x ≤ c.lo := by
  induction l generalizing x with
  | nil => intro c hc; simp at hc
  | cons d t ih =>
    intro c hc
    rcases List.mem_cons.mp hc with h | h
    · subst h
      exact le_trans (foldl_min_lo_le_init t _) (min_le_right _ _)
    · exact ih _ c h

theorem foldl_min_lo_attained (l : List Band) (x : ℚ) :
    l.foldl (fun a c => min a c.lo) x = x ∨
      ∃ c ∈ l, l.foldl (fun a c => min a c.lo) x = c.lo := by
  induction l generalizing x with
  | nil => exact Or.inl rfl
  | cons d t ih =>
    rcases ih (min x d.lo) with h | ⟨c, hc, h⟩
    · rcases min_cases x d.lo with ⟨he, _⟩ | ⟨he, _⟩
      · left
        simp only [List.foldl_cons]
        rw [h, he]
      · right
        refine ⟨d, List.mem_cons_self _ _, ?_⟩
        simp only [List.foldl_cons]
        rw [h, he]
    · right
      refine ⟨c, List.mem_cons_of_mem _ hc, ?_⟩
      simp only [List.foldl_cons]
      exact h

theorem foldl_max_hi_le_init (l : List Band) (x : ℚ) :
    x ≤ l.foldl (fun a c => max a c.hi) x := by
  induction l generalizing x with
  | nil => exact le_refl x
  | cons c t ih => exact le_trans (le_max_left _ _) (ih (max x c.hi))

theorem foldl_max_hi_le_mem (l : List Band) (x : ℚ) :
    ∀ c ∈ l, c.hi ≤ l.foldl (fun a c => max a c.hi) x := by
  induction l generalizing x with
  | nil => intro c hc; simp at hc
  | cons d t ih =>
    intro c hc
    rcases List.mem_cons.mp hc with h | h
    · subst h
      exact le_trans (le_max_right _ _) (foldl_max_hi_le_init t _)
    · exact ih _ c h

theorem foldl_max_hi_attained (l : List Band) (x : ℚ) :
    l.foldl (fun a c => max a c.hi) x = x ∨
      ∃ c ∈ l, l.foldl (fun a c => max a c.hi) x = c.hi := by
  induction l generalizing x with
  | nil => exact Or.inl rfl
  | cons d t ih =>
    rcases ih (max x d.hi) with h | ⟨c, hc, h⟩
    · rcases max_cases x d.hi with ⟨he, _⟩ | ⟨he, _⟩
      · left
        simp only [List.foldl_cons]
        rw [h, he]
      · right
        refine ⟨d, List.mem_cons_self _ _, ?_⟩
        simp only [List.foldl_cons]
        rw [h, he]
    · right
      refine ⟨c, List.mem_cons_of_mem _ hc, ?_⟩
      simp only [List.foldl_cons]
      exact h

theorem adaptive_core_filter_nil {bl : List Band} {m M : ℚ}
    (h : bl.filter (fun b => decide (m < b.hi ∧ M ≥ b.lo)) = []) :
    adaptive_core bl m M =
      (m - (if M ≠ m then (M - m) * 0.1 else 1),
       M + (if M ≠ m then (M - m) * 0.1 else 1)) := by
  unfold adaptive_core
  rw [h]

theorem adaptive_core_filter_cons {bl : List Band} {m M : ℚ} {b : Band}
    {bs : List Band}
    (h : bl.filter (fun x => decide (m < x.hi ∧ M ≥ x.lo)) = b :: bs) :
    adaptive_core bl m M =
      (bs.foldl (fun a c => min a c.lo) b.lo,
       bs.foldl (fun a c => max a c.hi) b.hi) := by
  unfold adaptive_core
  rw [h]

theorem adaptive_core_spec (bl : List Band) (n1 n2 n3 n4 : String)
    (dmin c1 c2 c3 dmax : ℚ)
    (hbl : bl =
      [⟨n1, dmin, c1⟩, ⟨n2, c1, c2⟩, ⟨n3, c2, c3⟩, ⟨n4, c3, dmax⟩])
    (h01 : dmin < c1) (h12 : c1 < c2) (h23 : c2 < c3) (h34 : c3 < dmax)
    (m M : ℚ) (hm : dmin ≤ m) (hmM : m ≤ M) (hM : M ≤ dmax) :
    ((adaptive_core bl m M).1 ≤ m ∧ M ≤ (adaptive_core bl m M).2) ∧
    (m = dmax ∨
      ((∃ b ∈ bl, (adaptive_core bl m M).1 = b.lo) ∧
       (∃ b ∈ bl, (adaptive_core bl m M).2 = b.hi))) := by
  subst hbl
  by_cases htop : m = dmax
  · have hMeq : M = m := le_antisymm (htop ▸ hM) hmM
    have hfil : List.filter (fun b => decide (m < b.hi ∧ M ≥ b.lo))
        ([⟨n1, dmin, c1⟩, ⟨n2, c1, c2⟩, ⟨n3, c2, c3⟩, ⟨n4, c3, dmax⟩] :
          List Band) = [] := by
      apply List.filter_eq_nil_iff.mpr
      intro b hb
      fin_cases hb <;>
        simp only [decide_eq_true_eq, not_and, ge_iff_le] <;>
        intro hlt <;>
        exact absurd hlt (by linarith)
    rw [adaptive_core_filter_nil hfil, hMeq]
    have hpad : (if m ≠ m then (m - m) * 0.1 else 1) = (1 : ℚ) :=
      if_neg (by simp)
    rw [hpad]
    refine ⟨⟨?_, ?_⟩, Or.inl htop⟩
    · show m - 1 ≤ m
      linarith
    · show m ≤ m + 1
      linarith
  · have hmlt : m < dmax := lt_of_le_of_ne (le_trans hmM hM) htop
    have hdminM : dmin ≤ M := le_trans hm hmM
    obtain ⟨Bm, hBmem, hBlo, hBhi, hBge⟩ :
        ∃ B ∈ ([⟨n1, dmin, c1⟩, ⟨n2, c1, c2⟩, ⟨n3, c2, c3⟩,
            ⟨n4, c3, dmax⟩] : List Band),
          B.lo ≤ m ∧ m < B.hi ∧ M ≥ B.lo := by
      rcases lt_or_le m c1 with h | h
      · exact ⟨⟨n1, dmin, c1⟩, by simp, hm, h, hdminM⟩
      · rcases lt_or_le m c2 with h2 | h2
        · exact ⟨⟨n2, c1, c2⟩, by simp, h, h2, by linarith⟩
        · rcases lt_or_le m c3 with h3 | h3
          · exact ⟨⟨n3, c2, c3⟩, by simp, h2, h3, by linarith⟩
          · exact ⟨⟨n4, c3, dmax⟩, by simp, h3, hmlt, by linarith⟩
    obtain ⟨BM, hMmem, hMhi, hMc1, hMc2⟩ :
        ∃ B ∈ ([⟨n1, dmin, c1⟩, ⟨n2, c1, c2⟩, ⟨n3, c2, c3⟩,
            ⟨n4, c3, dmax⟩] : List Band),
          M ≤ B.hi ∧ m < B.hi ∧ M ≥ B.lo := by
      rcases lt_or_le M c1 with h | h
      · exact ⟨⟨n1, dmin, c1⟩, by simp, le_of_lt h, by linarith, hdminM⟩
      · rcases lt_or_le M c2 with h2 | h2
        · exact ⟨⟨n2, c1, c2⟩, by simp, le_of_lt h2, by linarith, h⟩
        · rcases lt_or_le M c3 with h3 | h3
          · exact ⟨⟨n3, c2, c3⟩, by simp, le_of_lt h3, by linarith, h2⟩
          · exact ⟨⟨n4, c3, dmax⟩, by simp, hM, hmlt, h3⟩
    have hBmL : Bm ∈ List.filter (fun b => decide (m < b.hi ∧ M ≥ b.lo))
        ([⟨n1, dmin, c1⟩, ⟨n2, c1, c2⟩, ⟨n3, c2, c3⟩, ⟨n4, c3, dmax⟩] :
          List Band) :=
      List.mem_filter.mpr ⟨hBmem, decide_eq_true ⟨hBhi, hBge⟩⟩
    have hBML : BM ∈ List.filter (fun b => decide (m < b.hi ∧ M ≥ b.lo))
        ([⟨n1, dmin, c1⟩, ⟨n2, c1, c2⟩, ⟨n3, c2, c3⟩, ⟨n4, c3, dmax⟩] :
          List Band) :=
      List.mem_filter.mpr ⟨hMmem, decide_eq_true ⟨hMc1, hMc2⟩⟩
    obtain ⟨b, bs, hcons⟩ :
        ∃ b bs, List.filter (fun b => decide (m < b.hi ∧ M ≥ b.lo))
            ([⟨n1, dmin, c1⟩, ⟨n2, c1, c2⟩, ⟨n3, c2, c3⟩,
              ⟨n4, c3, dmax⟩] : List Band) =
          b :: bs := by
      cases hfil : List.filter (fun b => decide (m < b.hi ∧ M ≥ b.lo))
          ([⟨n1, dmin, c1⟩, ⟨n2, c1, c2⟩, ⟨n3, c2, c3⟩, ⟨n4, c3, dmax⟩] :
            List Band) with
      | nil => rw [hfil] at hBmL; simp at hBmL
      | cons b bs => exact ⟨b, bs, rfl⟩
    have heq := adaptive_core_filter_cons hcons
    rw [heq]
    rw [hcons] at hBmL hBML
    have hp1_le : ∀ c ∈ b :: bs,
        bs.foldl (fun a c => min a c.lo) b.lo ≤ c.lo := by
      intro c hc
      rcases List.mem_cons.mp hc with h | h
      · subst h; exact foldl_min_lo_le_init bs _
      · exact foldl_min_lo_le_mem bs _ c h
    have hp2_ge : ∀ c ∈ b :: bs,
        c.hi ≤ bs.foldl (fun a c => max a c.hi) b.hi := by
      intro c hc
      rcases List.mem_cons.mp hc with h | h
      · subst h; exact foldl_max_hi_le_init bs _
      · exact foldl_max_hi_le_mem bs _ c h
    have hsub : ∀ c ∈ b :: bs,
        c ∈ ([⟨n1, dmin, c1⟩, ⟨n2, c1, c2⟩, ⟨n3, c2, c3⟩,
          ⟨n4, c3, dmax⟩] : List Band) := by
      intro c hc
      rw [← hcons] at hc
      exact List.mem_of_mem_filter hc
    refine ⟨⟨le_trans (hp1_le Bm hBmL) hBlo,
             le_trans hMhi (hp2_ge BM hBML)⟩, Or.inr ⟨?_, ?_⟩⟩
    · rcases foldl_min_lo_attained bs b.lo with h | ⟨c, hc, h⟩
      · exact ⟨b, hsub b (List.mem_cons_self _ _), h⟩
      · exact ⟨c, hsub c (List.mem_cons_of_mem _ hc), h⟩
    · rcases foldl_max_hi_attained bs b.hi with h | ⟨c, hc, h⟩
      · exact ⟨b, hsub b (List.mem_cons_self _ _), h⟩
      · exact ⟨c, hsub c (List.mem_cons_of_mem _ hc), h⟩

/-- C2 counterexample: for Mental Math with data `[1, 3]` (partly below
the 2.0–20.0 band domain) the poor band `(2.0, 6.5)` is the only
touched band, so `_get_adaptive_y_range` returns `(2.0, 6.5)` with
`y_min = 2 > 1 = min(values)`: the data point 1 is cropped out of the
returned range, refuting `y_min ≤ min(values)`. -/
theorem adaptive_range_crops_data :
    _get_adaptive_y_range TestName.mentalMath [1, 3] = (2, 6.5) ∧
    ¬ ((_get_adaptive_y_range TestName.mentalMath [1, 3]).1 ≤
        min (1 : ℚ) 3) := by
  have h : _get_adaptive_y_range TestName.mentalMath [1, 3] = (2, 6.5) := by
    norm_num [_get_adaptive_y_range, adaptive_core, get_performance_bands,
      List.filter_cons, List.foldl, decide_eq_true_eq]
  refine ⟨h, ?_⟩
  rw [h]
  norm_num

/-- C2 amended: for every test kind and every non-empty sequence of
display-score values that all lie within the kind's band domain
`[domain_min, domain_max]`, `_get_adaptive_y_range` returns
`(y_min, y_max)` with `y_min ≤ min(values)` and `y_max ≥ max(values)`
(in-domain data is never cropped out), and both bounds coincide with a
band boundary of that kind except in the single-point fallback path —
which, for in-domain data, occurs exactly when every value equals
`domain_max`, so that no band touches the data range.  (Values outside
the domain can be cropped, as the counterexample shows.) -/
theorem adaptive_range_in_domain (k : TestName) (v : ℚ) (vs : List ℚ)
    (hdom : ∀ x ∈ v :: vs, (domain k).1 ≤ x ∧ x ≤ (domain k).2) :
    (∀ x ∈ v :: vs,
      (_get_adaptive_y_range k (v :: vs)).1 ≤ x ∧
      x ≤ (_get_adaptive_y_range k (v :: vs)).2) ∧
    ((∀ x ∈ v :: vs, x = (domain k).2) ∨
      ((∃ b ∈ get_performance_bands k,
          (_get_adaptive_y_range k (v :: vs)).1 = b.lo) ∧
       (∃ b ∈ get_performance_bands k,
          (_get_adaptive_y_range k (v :: vs)).2 = b.hi))) := by
  have hmmem := foldl_min_mem vs v
  have hMmem := foldl_max_mem vs v
  have hm : (domain k).1 ≤ vs.foldl min v := (hdom _ hmmem).1
  have hM : vs.foldl max v ≤ (domain k).2 := (hdom _ hMmem).2
  have hmM : vs.foldl min v ≤ vs.foldl max v :=
    le_trans (foldl_min_le_init vs v) (foldl_max_le_init vs v)
  have hkey :
      ((adaptive_core (get_performance_bands k) (vs.foldl min v)
          (vs.foldl max v)).1 ≤ vs.foldl min v ∧
        vs.foldl max v ≤ (adaptive_core (get_performance_bands k)
          (vs.foldl min v) (vs.foldl max v)).2) ∧
      (vs.foldl min v = (domain k).2 ∨
        ((∃ b ∈ get_performance_bands k,
            (adaptive_core (get_performance_bands k) (vs.foldl min v)
              (vs.foldl max v)).1 = b.lo) ∧
         (∃ b ∈ get_performance_bands k,
            (adaptive_core (get_performance_bands k) (vs.foldl min v)
              (vs.foldl max v)).2 = b.hi))) := by
    cases k
    · exact adaptive_core_spec _ "poor" "average" "good" "excellent"
        0.2 0.4 0.6 0.8 1.0 rfl (by norm_num) (by norm_num) (by norm_num)
        (by norm_num) _ _ hm hmM hM
    · exact adaptive_core_spec _ "poor" "average" "good" "excellent"
        0 4 8 12 16 rfl (by norm_num) (by norm_num) (by norm_num)
        (by norm_num) _ _ hm hmM hM
    · exact adaptive_core_spec _ "poor" "average" "good" "excellent"
        2.0 6.5 11.0 15.5 20.0 rfl (by norm_num) (by norm_num)
        (by norm_num) (by norm_num) _ _ hm hmM hM
    · exact adaptive_core_spec _ "poor" "average" "good" "excellent"
        0 25 50 75 100 rfl (by norm_num) (by norm_num) (by norm_num)
        (by norm_num) _ _ hm hmM hM
    · exact adaptive_core_spec _ "poor" "average" "good" "excellent"
        1.0 2.0 3.0 4.0 5.0 rfl (by norm_num) (by norm_num) (by norm_num)
        (by norm_num) _ _ hm hmM hM
    · exact adaptive_core_spec _ "poor" "average" "good" "excellent"
        1.0 4.0 7.0 10.0 13.0 rfl (by norm_num) (by norm_num)
        (by norm_num) (by norm_num) _ _ hm hmM hM
  obtain ⟨⟨h1, h2⟩, h3⟩ := hkey
  have hRange : _get_adaptive_y_range k (v :: vs) =
      adaptive_core (get_performance_bands k) (vs.foldl min v)
        (vs.foldl max v) := rfl
  rw [hRange]
  constructor
  · intro x hx
    exact ⟨le_trans h1 (foldl_min_le_all vs v x hx),
           le_trans (foldl_max_le_all vs v x hx) h2⟩
  · rcases h3 with h | h
    · left
      intro x hx
      exact le_antisymm (hdom x hx).2 (h ▸ foldl_min_le_all vs v x hx)
    · right
      exact h

/-- Witness for `adaptive_range_in_domain` at a concrete in-domain
input. -/
theorem adaptive_range_in_domain_witness :
    (_get_adaptive_y_range TestName.stroopTest [2.5]).1 ≤ 2.5 ∧
    (2.5 : ℚ) ≤ (_get_adaptive_y_range TestName.stroopTest [2.5]).2 :=
  (adaptive_range_in_domain TestName.stroopTest 2.5 []
    (by
      intro x hx
      simp only [List.mem_singleton] at hx
      subst hx
      norm_num [domain])).1 2.5 (by simp)

/-- Witness for `bands_partition_domain` at a concrete test kind. -/
theorem bands_partition_domain_witness :
    (get_performance_bands TestName.mentalMath).map Band.name =
      ["poor", "average", "good", "excellent"] :=
  (bands_partition_domain TestName.mentalMath).1

end Insomniapp
